import Mathlib

/-!
# Verification of `hash-table` (`src/main.cpp`)

Shallow embedding of the `HashTable` struct from `src/main.cpp` and proofs
about it.

Modelling conventions:

* A C string key (`const char *`, NUL-terminated) is a `List Nat` of its
  bytes (each byte nonzero, since NUL terminates the string).  `strcmp`
  equality on NUL-free byte strings is list equality.
* `uint64_t` arithmetic is `Nat` arithmetic reduced `% 2^64` at every
  operation that can overflow.
* `char` is modelled as signed (the convention of the x86-64 platforms this
  code targets), so `static_cast<uint64_t>(*key)` sign-extends: a byte
  `c ≥ 128` becomes `2^64 - 256 + c`.  This is `charToU64` below.
* `std::shared_ptr<Entry>` chains (`nullptr` / a node with a `next` link)
  are the inductive `EntryPtr`.
* The `while` loop of `linear_probe` has no bound in the source; it is
  embedded as the fuel-indexed `linearProbeFuel`.  The loop's only state is
  `index`, which cycles with period `m_cap`, so the loop terminates iff it
  terminates within `m_cap` iterations (`linearProbeFuel_cap_adequate`
  below); `insert` therefore runs the probe with fuel `m_cap` and returns
  `none` exactly when the source loop runs forever.
-/

set_option autoImplicit false

/-- `2^64`, the modulus of `uint64_t` arithmetic. -/
def U64 : Nat := 18446744073709551616

/-- The value `static_cast<uint64_t>(c)` of a `char` holding byte `c`
(`0 ≤ c ≤ 255`): bytes below 128 are nonnegative `char`s, bytes from 128
are negative and sign-extend to `2^64 - 256 + c`. -/
def charToU64 (c : Nat) : Nat :=
  if c < 128 then c else U64 - 256 + c

/-- The loop of `HashTable::fnv1a_hash`: for each char,
`hash ^= static_cast<uint64_t>(*key); hash *= 1099511628211ul;`
with `uint64_t` wraparound. -/
def fnv1aLoop : List Nat → Nat → Nat
  | [], h => h
  | c :: cs, h => fnv1aLoop cs ((h ^^^ charToU64 c) * 1099511628211 % U64)

/-- The loop of `HashTable::djb2_hash`: for each char,
`hash = (((hash << 5) + hash) + *key++)` with `uint64_t` wraparound. -/
def djb2Loop : List Nat → Nat → Nat
  | [], h => h
  | c :: cs, h => djb2Loop cs (((h <<< 5) + h + charToU64 c) % U64)

/-- A `std::shared_ptr<Entry>` slot value: `nullptr`, or an `Entry`
(`const char *key; int val; std::shared_ptr<Entry> next;`). -/
inductive EntryPtr where
  | null : EntryPtr
  | node (key : List Nat) (val : Int) (next : EntryPtr) : EntryPtr
deriving DecidableEq, Repr

/-- The `HashTable` struct: `const size_t m_cap;` and
`std::vector<std::shared_ptr<Entry>> m_table;`. -/
structure HashTable where
  m_cap : Nat
  m_table : List EntryPtr
deriving DecidableEq, Repr

namespace HashTable

/-- The constructor `HashTable(size_t capacity)`:
`m_cap(capacity), m_table(m_cap, nullptr)`. -/
def construct (capacity : Nat) : HashTable :=
  ⟨capacity, List.replicate capacity .null⟩

/-- `HashTable::fnv1a_hash`: seed `14695981039346656037`, FNV-1a fold over
the chars, result reduced `% m_cap`. -/
def fnv1a_hash (cap : Nat) (key : List Nat) : Nat :=
  fnv1aLoop key 14695981039346656037 % cap

/-- `HashTable::djb2_hash`: seed `5381`, djb2 fold over the chars, result
reduced `% m_cap`. -/
def djb2_hash (cap : Nat) (key : List Nat) : Nat :=
  djb2Loop key 5381 % cap

/-- The chain walk inside `HashTable::get`: follow `next` links from a slot,
returning the value of the first entry whose key `strcmp`-equals `key`. -/
def chainLookup (key : List Nat) : EntryPtr → Option Int
  | .null => none
  | .node k v next => if k = key then some v else chainLookup key next

/-- `HashTable::get`: index by `fnv1a_hash`, then walk the chain at that
slot only (no probing). -/
def get (ht : HashTable) (key : List Nat) : Option Int :=
  chainLookup key (ht.m_table.getD (fnv1a_hash ht.m_cap key) .null)

/-- `HashTable::contains`: `get(key).has_value()`. -/
def contains (ht : HashTable) (key : List Nat) : Bool :=
  (ht.get key).isSome

/-- `HashTable::is_empty`: scan the slots, `false` on the first non-null. -/
def is_empty (ht : HashTable) : Bool :=
  ht.m_table.all (· == .null)

/-- The inner `while` of `HashTable::size`: length of a chain. -/
def chainCount : EntryPtr → Nat
  | .null => 0
  | .node _ _ next => chainCount next + 1

/-- `HashTable::size`: sum over every slot of the length of its chain. -/
def size (ht : HashTable) : Nat :=
  (ht.m_table.map chainCount).sum

/-- `HashTable::capacity`. -/
def capacity (ht : HashTable) : Nat := ht.m_cap

/-- `HashTable::clear`: set every slot to `nullptr`. -/
def clear (ht : HashTable) : HashTable :=
  ⟨ht.m_cap, ht.m_table.map fun _ => .null⟩

/-- `HashTable::remove`: the source is a stub (`// TODO`) whose body is
`return;`, so it leaves the table unchanged. -/
def remove (ht : HashTable) (_key : List Nat) : HashTable := ht

/-- `HashTable::linear_probe`, fuel-indexed.  Each iteration tests
`m_table[index]`: `nullptr` or a head entry whose key `strcmp`-equals `key`
stops the loop at `index`; otherwise `index = (index + 1) % m_cap`.  The
source loop has no bound; fuel `0` (`none`) marks non-termination within
the given number of iterations. -/
def linearProbeFuel (tbl : List EntryPtr) (cap : Nat) (key : List Nat) :
    Nat → Nat → Option Nat
  | _, 0 => none
  | index, fuel + 1 =>
    match tbl.getD index .null with
    | .null => some index
    | .node k _ _ =>
      if k = key then some index
      else linearProbeFuel tbl cap key ((index + 1) % cap) fuel

/-- `HashTable::insert`: hash the key, probe linearly from the home index,
then either place a fresh entry (`next = nullptr`) in the empty slot found,
or overwrite `m_table[index]->val`.  Returns `none` when the probe loop of
the source would run forever (see `linearProbeFuel_cap_adequate`). -/
def insert (ht : HashTable) (key : List Nat) (val : Int) : Option HashTable :=
  match linearProbeFuel ht.m_table ht.m_cap key (fnv1a_hash ht.m_cap key) ht.m_cap with
  | none => none
  | some index =>
    match ht.m_table.getD index .null with
    | .null => some ⟨ht.m_cap, ht.m_table.set index (.node key val .null)⟩
    | .node k _ next => some ⟨ht.m_cap, ht.m_table.set index (.node k val next)⟩

end HashTable

/-! ## Reference byte folds

The spec (§4.1) defines both hash functions as folds over the *bytes* of
the key.  The following definitions transcribe the spec's words, to be
compared with the embedded source functions above.  They differ from the
source exactly where `charToU64` differs from the identity, i.e. on bytes
`≥ 128`. -/

/-- The FNV-1a byte fold as the spec words it: for each byte `c`,
`hash = (hash XOR c) * 1099511628211` with 64-bit wraparound. -/
def fnv1aSpecLoop : List Nat → Nat → Nat
  | [], h => h
  | c :: cs, h => fnv1aSpecLoop cs ((h ^^^ c) * 1099511628211 % U64)

/-- The spec's FNV-1a home index: byte fold from the offset basis, then
`mod capacity`. -/
def fnv1aSpecHash (cap : Nat) (key : List Nat) : Nat :=
  fnv1aSpecLoop key 14695981039346656037 % cap

/-- The djb2 byte fold as the spec words it: for each byte `c`,
`hash = hash * 33 + c` with 64-bit wraparound. -/
def djb2SpecLoop : List Nat → Nat → Nat
  | [], h => h
  | c :: cs, h => djb2SpecLoop cs ((h * 33 + c) % U64)

/-- The spec's djb2 home index: byte fold from seed 5381, then
`mod capacity`. -/
def djb2SpecHash (cap : Nat) (key : List Nat) : Nat :=
  djb2SpecLoop key 5381 % cap

/-! ## Concrete inputs used by witnesses and counterexamples -/

/-- The one-byte key "a". -/
def keyA : List Nat := [97]

/-- The one-byte key "b".  Its fnv1a home index at capacity 2 is 1. -/
def keyB : List Nat := [98]

/-- The one-byte key "d".  Its fnv1a home index at capacity 2 is also 1,
so it collides with `keyB`. -/
def keyD : List Nat := [100]

/-- The full capacity-1 table holding only `keyA`; it is the result of
`insert(keyA, 1)` on a fresh capacity-1 table. -/
def tableA1 : HashTable := ⟨1, [.node keyA 1 .null]⟩

/-- A capacity-2 table holding `keyB` at its home slot 1; it is the result
of `insert(keyB, 1)` on a fresh capacity-2 table. -/
def tableB2 : HashTable := ⟨2, [.null, .node keyB 1 .null]⟩

/-! ## Helper lemmas -/

lemma getD_map_const_null (l : List EntryPtr) (j : Nat) :
    (l.map fun _ => EntryPtr.null).getD j .null = .null := by
  rw [List.getD_eq_getElem?_getD, List.getElem?_map]
  cases h : l[j]? <;> simp

lemma getD_replicate_null (n j : Nat) :
    (List.replicate n EntryPtr.null).getD j .null = .null := by
  rw [List.getD_eq_getElem?_getD, List.getElem?_replicate]
  split <;> simp

lemma sum_map_zero (l : List EntryPtr) : (l.map fun _ => (0 : Nat)).sum = 0 := by
  induction l with
  | nil => rfl
  | cons e l ih => simp [ih]

lemma fnv1aLoop_eq_spec (key : List Nat) (hascii : ∀ c ∈ key, c < 128) :
    ∀ h, fnv1aLoop key h = fnv1aSpecLoop key h := by
  induction key with
  | nil => intro h; rfl
  | cons c cs ih =>
    intro h
    have hc : c < 128 := hascii c (by simp)
    rw [fnv1aLoop, fnv1aSpecLoop, charToU64, if_pos hc]
    exact ih (fun b hb => hascii b (by simp [hb])) _

lemma djb2Loop_eq_spec (key : List Nat) (hascii : ∀ c ∈ key, c < 128) :
    ∀ h, djb2Loop key h = djb2SpecLoop key h := by
  induction key with
  | nil => intro h; rfl
  | cons c cs ih =>
    intro h
    have hc : c < 128 := hascii c (by simp)
    rw [djb2Loop, djb2SpecLoop, charToU64, if_pos hc]
    have harith : (h <<< 5) + h + c = h * 33 + c := by
      have h32 : h <<< 5 = h * 32 := by rw [Nat.shiftLeft_eq]
      omega
    rw [harith]
    exact ih (fun b hb => hascii b (by simp [hb])) _

/-! ## C9, C10 — hash functions versus the spec's byte folds -/

/-- C9 (counterexample): the source `fnv1a_hash` disagrees with the spec's
byte fold on the one-byte key `[128]` at capacity 1000, because
`static_cast<uint64_t>` sign-extends the (signed) `char` before the XOR. -/
theorem fnv1a_hash_byte_fold_counterexample :
    HashTable.fnv1a_hash 1000 [128] ≠ fnv1aSpecHash 1000 [128] := by decide

/-- C9 (amended): for every key all of whose bytes are below 128 (every
ASCII key), `fnv1a_hash` equals the spec's reference byte fold reduced
`mod capacity`, and the empty string yields home index
`seed mod capacity`.  Bytes `≥ 128` are sign-extended before the XOR, so
there the hash differs from the byte fold. -/
theorem fnv1a_hash_eq_byte_fold_on_ascii (cap : Nat) (key : List Nat)
    (hascii : ∀ c ∈ key, c < 128) :
    HashTable.fnv1a_hash cap key = fnv1aSpecHash cap key ∧
    HashTable.fnv1a_hash cap [] = 14695981039346656037 % cap := by
  constructor
  · unfold HashTable.fnv1a_hash fnv1aSpecHash
    rw [fnv1aLoop_eq_spec key hascii]
  · rfl

/-- Witness for `fnv1a_hash_eq_byte_fold_on_ascii` at the driver's
capacity 40 and the ASCII key "pup". -/
theorem fnv1a_hash_eq_byte_fold_on_ascii_witness :
    HashTable.fnv1a_hash 40 [112, 117, 112] = fnv1aSpecHash 40 [112, 117, 112] ∧
    HashTable.fnv1a_hash 40 [] = 14695981039346656037 % 40 :=
  fnv1a_hash_eq_byte_fold_on_ascii 40 [112, 117, 112] (by decide)

/-- C10 (counterexample): the source `djb2_hash` disagrees with the spec's
byte fold on the one-byte key `[128]` at capacity 1000: the signed `char`
is sign-extended, so the code adds `2^64 - 128` where the spec adds 128. -/
theorem djb2_hash_byte_fold_counterexample :
    HashTable.djb2_hash 1000 [128] ≠ djb2SpecHash 1000 [128] := by decide

/-- C10 (amended): for every key all of whose bytes are below 128,
`djb2_hash` equals the spec's `hash * 33 + c` byte fold reduced
`mod capacity`; the shift form `(hash << 5) + hash + c` equals
`hash * 33 + c` modulo `2^64` for all arguments; and the empty string
yields home index `5381 mod capacity`.  Bytes `≥ 128` are sign-extended
before the addition, so there the hash differs from the byte fold. -/
theorem djb2_hash_eq_byte_fold_on_ascii (cap : Nat) (key : List Nat) (h c : Nat)
    (hascii : ∀ b ∈ key, b < 128) :
    HashTable.djb2_hash cap key = djb2SpecHash cap key ∧
    ((h <<< 5) + h + c) % U64 = (h * 33 + c) % U64 ∧
    HashTable.djb2_hash cap [] = 5381 % cap := by
  refine ⟨?_, ?_, rfl⟩
  · unfold HashTable.djb2_hash djb2SpecHash
    rw [djb2Loop_eq_spec key hascii]
  · have h32 : h <<< 5 = h * 32 := by rw [Nat.shiftLeft_eq]
    have : (h <<< 5) + h + c = h * 33 + c := by omega
    rw [this]

/-- Witness for `djb2_hash_eq_byte_fold_on_ascii` at capacity 40, the ASCII
key "pup", and the shift/multiply pair `h = 5381`, `c = 112`. -/
theorem djb2_hash_eq_byte_fold_on_ascii_witness :
    HashTable.djb2_hash 40 [112, 117, 112] = djb2SpecHash 40 [112, 117, 112] ∧
    ((5381 <<< 5) + 5381 + 112) % U64 = (5381 * 33 + 112) % U64 ∧
    HashTable.djb2_hash 40 [] = 5381 % 40 :=
  djb2_hash_eq_byte_fold_on_ascii 40 [112, 117, 112] 5381 112 (by decide)

/-! ## C5 — clear -/

/-- C5: after `clear()` the table is empty — `is_empty()` is true, `size()`
is 0, every slot is `nullptr`, and `get` returns not-found for every key
(in particular every key present before the call). -/
theorem clear_resets_table (ht : HashTable) (key : List Nat) :
    ht.clear.is_empty = true ∧ ht.clear.size = 0 ∧
    (∀ j, ht.clear.m_table.getD j .null = .null) ∧
    ht.clear.get key = none := by
  refine ⟨?_, ?_, ?_, ?_⟩
  · simp [HashTable.clear, HashTable.is_empty, List.all_eq_true]
  · show ((ht.m_table.map fun _ => EntryPtr.null).map HashTable.chainCount).sum = 0
    rw [List.map_map]
    exact sum_map_zero ht.m_table
  · intro j
    exact getD_map_const_null ht.m_table j
  · show HashTable.chainLookup key _ = none
    rw [show ht.clear.m_table = ht.m_table.map fun _ => EntryPtr.null from rfl,
      getD_map_const_null]
    rfl

/-- Witness for `clear_resets_table`: clearing the one-entry capacity-1
table `tableA1` and then looking up the previously present `keyA`. -/
theorem clear_resets_table_witness :
    tableA1.clear.is_empty = true ∧ tableA1.clear.size = 0 ∧
    (∀ j, tableA1.clear.m_table.getD j .null = .null) ∧
    tableA1.clear.get keyA = none :=
  clear_resets_table tableA1 keyA

/-! ## C7 — construction -/

/-- C7: a freshly constructed table has `capacity` slots, all empty
(`is_empty()` is true), and `get` returns the not-found marker for every
key, none having been inserted. -/
theorem construct_fresh_table (capacity : Nat) (key : List Nat) :
    (HashTable.construct capacity).capacity = capacity ∧
    (HashTable.construct capacity).m_table.length = capacity ∧
    (HashTable.construct capacity).is_empty = true ∧
    (HashTable.construct capacity).get key = none := by
  refine ⟨rfl, by simp [HashTable.construct], ?_, ?_⟩
  · simp [HashTable.construct, HashTable.is_empty, List.all_eq_true,
      List.mem_replicate]
  · show HashTable.chainLookup key _ = none
    rw [show (HashTable.construct capacity).m_table
        = List.replicate capacity EntryPtr.null from rfl, getD_replicate_null]
    rfl

/-- Witness for `construct_fresh_table` at capacity 40 and key "puppy". -/
theorem construct_fresh_table_witness :
    (HashTable.construct 40).capacity = 40 ∧
    (HashTable.construct 40).m_table.length = 40 ∧
    (HashTable.construct 40).is_empty = true ∧
    (HashTable.construct 40).get [112, 117, 112, 112, 121] = none :=
  construct_fresh_table 40 [112, 117, 112, 112, 121]

/-! ## C1 — insert followed by get -/

/-- C1: the claim fails on the code.  At capacity 2 the keys `keyB` and
`keyD` share home index 1, so `insert(keyD, 2)` probes `keyD` forward into
slot 0; but `get` only walks the chain at the home slot (and `insert`
never chains), so `get(keyD)` returns not-found instead of 2.  The final
table is shown explicitly: `keyD` sits displaced in slot 0. -/
theorem insert_then_get_misses_displaced_key :
    ((((HashTable.construct 2).insert keyB 1).bind fun h =>
        h.insert keyD 2).map fun h => (h.get keyD, h.get keyB, h.m_table)) =
      some (none, some 1,
        [.node keyD 2 .null, .node keyB 1 .null]) := by decide

/-! ## C3 — remove -/

/-- C3: the claim fails on the code.  `HashTable::remove` is a `TODO` stub
whose body is `return;`: after inserting `keyA` and calling
`remove(keyA)`, the entry is still present — `get(keyA)` returns its value
and `size()` is still 1, where the claim demands not-found and size 0. -/
theorem remove_leaves_present_entry :
    (((HashTable.construct 2).insert keyA 1).map fun h =>
        ((h.remove keyA).get keyA, (h.remove keyA).size,
          (h.remove keyA).m_table)) =
      some (some 1, 1, [.node keyA 1 .null, .null]) := by decide

/-! ## Probe termination lemmas (C2) -/

/-- If every slot below `cap` is occupied by an entry whose head key is not
`key`, the probe loop never exits: for every fuel and every in-range start
index the fuel runs out. -/
theorem probe_diverges_of_full (tbl : List EntryPtr) (cap : Nat) (key : List Nat)
    (hfull : ∀ j < cap, ∃ k v n, tbl.getD j .null = .node k v n ∧ k ≠ key) :
    ∀ fuel index, index < cap → HashTable.linearProbeFuel tbl cap key index fuel = none := by
  intro fuel
  induction fuel with
  | zero => intro index _; rfl
  | succ fuel ih =>
    intro index hidx
    obtain ⟨k, v, n, hslot, hk⟩ := hfull index hidx
    have hcap : 0 < cap := Nat.lt_of_le_of_lt (Nat.zero_le _) hidx
    rw [HashTable.linearProbeFuel, hslot]
    show (if k = key then some index
        else HashTable.linearProbeFuel tbl cap key ((index + 1) % cap) fuel) = none
    rw [if_neg hk]
    exact ih _ (Nat.mod_lt _ hcap)

/-- One step of an exhausted probe: the examined slot is occupied by a
non-matching entry, and the rest of the probe is also exhausted. -/
lemma probe_none_step (tbl : List EntryPtr) (cap : Nat) (key : List Nat)
    (index fuel : Nat)
    (h : HashTable.linearProbeFuel tbl cap key index (fuel + 1) = none) :
    (∃ k v n, tbl.getD index .null = .node k v n ∧ k ≠ key) ∧
      HashTable.linearProbeFuel tbl cap key ((index + 1) % cap) fuel = none := by
  cases hslot : tbl.getD index .null with
  | null =>
    rw [HashTable.linearProbeFuel, hslot] at h
    have h2 : some index = none := h
    exact Option.noConfusion h2
  | node k v n =>
    rw [HashTable.linearProbeFuel, hslot] at h
    have h2 : (if k = key then some index
        else HashTable.linearProbeFuel tbl cap key ((index + 1) % cap) fuel) = none := h
    by_cases hk : k = key
    · rw [if_pos hk] at h2; exact Option.noConfusion h2
    · rw [if_neg hk] at h2
      exact ⟨⟨k, v, n, rfl, hk⟩, h2⟩

/-- Every slot visited by an exhausted probe is occupied by a
non-matching entry. -/
lemma probe_none_visited (tbl : List EntryPtr) (cap : Nat) (key : List Nat) :
    ∀ fuel index, index < cap →
      HashTable.linearProbeFuel tbl cap key index fuel = none →
      ∀ t < fuel, ∃ k v n,
        tbl.getD ((index + t) % cap) .null = .node k v n ∧ k ≠ key := by
  intro fuel
  induction fuel with
  | zero => intro index _ _ t ht; exact absurd ht (Nat.not_lt_zero t)
  | succ fuel ih =>
    intro index hidx h t ht
    obtain ⟨hslot, hrest⟩ := probe_none_step tbl cap key index fuel h
    cases t with
    | zero =>
      rw [Nat.add_zero, Nat.mod_eq_of_lt hidx]
      exact hslot
    | succ t =>
      have hcap : 0 < cap := Nat.lt_of_le_of_lt (Nat.zero_le _) hidx
      have := ih ((index + 1) % cap) (Nat.mod_lt _ hcap) hrest t
        (Nat.lt_of_succ_lt_succ ht)
      rwa [Nat.mod_add_mod, Nat.add_assoc, Nat.add_comm 1 t] at this

/-- Adequacy of fuel `cap` for the probe loop: the loop state is just
`index`, which cycles through the residues mod `cap`, so a probe that
exhausts fuel `cap` never terminates with any amount of fuel.  This is why
`insert` embeds the unbounded `while` of `linear_probe` with fuel
`m_cap`. -/
theorem linearProbeFuel_cap_adequate (tbl : List EntryPtr) (cap : Nat)
    (key : List Nat) (index : Nat) (hidx : index < cap)
    (h : HashTable.linearProbeFuel tbl cap key index cap = none) :
    ∀ fuel, HashTable.linearProbeFuel tbl cap key index fuel = none := by
  have hcap : 0 < cap := Nat.lt_of_le_of_lt (Nat.zero_le _) hidx
  have hfull : ∀ j < cap, ∃ k v n,
      tbl.getD j .null = .node k v n ∧ k ≠ key := by
    intro j hj
    have ht : (cap + j - index) % cap < cap := Nat.mod_lt _ hcap
    have := probe_none_visited tbl cap key cap index hidx h
      ((cap + j - index) % cap) ht
    have hidx2 : index ≤ cap + j := Nat.le_trans (Nat.le_of_lt hidx) (Nat.le_add_right _ _)
    have heq : (index + (cap + j - index) % cap) % cap = j := by
      rw [Nat.add_mod_mod, Nat.add_sub_cancel' hidx2, Nat.add_mod_left,
        Nat.mod_eq_of_lt hj]
    rwa [heq] at this
  intro fuel
  exact probe_diverges_of_full tbl cap key hfull fuel index hidx

/-! ## C2 — insert into a full table -/

/-- C2: the claim fails on the code.  `tableA1` is the full capacity-1
table reached by `insert(keyA, 1)` on a fresh table; inserting the fresh
key `keyB` makes `linear_probe` loop forever — the probe finds no result
under any fuel (the source `while` never exits), so `insert` diverges
instead of surfacing a capacity-exhausted failure. -/
theorem insert_full_table_never_terminates :
    (HashTable.construct 1).insert keyA 1 = some tableA1 ∧
    (∀ fuel, HashTable.linearProbeFuel tableA1.m_table tableA1.m_cap keyB 0 fuel
      = none) ∧
    tableA1.insert keyB 2 = none := by
  refine ⟨by decide, ?_, by decide⟩
  intro fuel
  have hfull : ∀ j < tableA1.m_cap, ∃ k v n,
      tableA1.m_table.getD j .null = .node k v n ∧ k ≠ keyB := by
    intro j hj
    have hj0 : j = 0 := Nat.lt_one_iff.mp hj
    subst hj0
    exact ⟨keyA, 1, .null, rfl, by decide⟩
  exact probe_diverges_of_full _ _ _ hfull fuel 0 (by decide)

/-- Witness instantiating `insert_full_table_never_terminates` at fuel 7:
even with seven times the capacity in probe attempts the loop has not
exited. -/
theorem insert_full_table_never_terminates_witness :
    HashTable.linearProbeFuel tableA1.m_table tableA1.m_cap keyB 0 7 = none :=
  insert_full_table_never_terminates.2.1 7

/-! ## Probe success characterisation -/

/-- A successful probe stops at the slot reached after `t` forward steps
from the start index: every earlier slot on the path is occupied by a
non-matching entry, and the final slot is empty or its head key matches. -/
theorem probe_some_spec (tbl : List EntryPtr) (cap : Nat) (key : List Nat) :
    ∀ fuel index j, index < cap →
      HashTable.linearProbeFuel tbl cap key index fuel = some j →
      ∃ t < fuel, j = (index + t) % cap ∧
        (∀ s < t, ∃ k v n,
          tbl.getD ((index + s) % cap) .null = .node k v n ∧ k ≠ key) ∧
        (tbl.getD j .null = .null ∨ ∃ v n, tbl.getD j .null = .node key v n) := by
  intro fuel
  induction fuel with
  | zero =>
    intro index j _ h
    exact absurd h (by simp [HashTable.linearProbeFuel])
  | succ fuel ih =>
    intro index j hidx h
    cases hslot : tbl.getD index .null with
    | null =>
      rw [HashTable.linearProbeFuel, hslot] at h
      have h2 : some index = some j := h
      have hij : index = j := Option.some.inj h2
      subst hij
      exact ⟨0, Nat.succ_pos _,
        by rw [Nat.add_zero, Nat.mod_eq_of_lt hidx],
        fun s hs => absurd hs (Nat.not_lt_zero s), Or.inl hslot⟩
    | node k v n =>
      rw [HashTable.linearProbeFuel, hslot] at h
      have h2 : (if k = key then some index
          else HashTable.linearProbeFuel tbl cap key ((index + 1) % cap) fuel)
          = some j := h
      by_cases hk : k = key
      · rw [if_pos hk] at h2
        have hij : index = j := Option.some.inj h2
        subst hij
        subst hk
        exact ⟨0, Nat.succ_pos _,
          by rw [Nat.add_zero, Nat.mod_eq_of_lt hidx],
          fun s hs => absurd hs (Nat.not_lt_zero s), Or.inr ⟨v, n, hslot⟩⟩
      · rw [if_neg hk] at h2
        have hcap : 0 < cap := Nat.lt_of_le_of_lt (Nat.zero_le _) hidx
        obtain ⟨t, htf, hjt, hpath, hstop⟩ :=
          ih ((index + 1) % cap) j (Nat.mod_lt _ hcap) h2
        refine ⟨t + 1, Nat.succ_lt_succ htf, ?_, ?_, hstop⟩
        · rw [hjt, Nat.mod_add_mod]
          congr 1
          omega
        · intro s hs
          cases s with
          | zero =>
            rw [Nat.add_zero, Nat.mod_eq_of_lt hidx]
            exact ⟨k, v, n, hslot, hk⟩
          | succ s =>
            have := hpath s (Nat.lt_of_succ_lt_succ hs)
            rwa [Nat.mod_add_mod, Nat.add_assoc, Nat.add_comm 1 s] at this

/-- Updating one slot changes the sum of chain lengths by the difference of
the chain lengths of the old and new slot contents. -/
lemma sum_map_chainCount_set (tbl : List EntryPtr) :
    ∀ j, j < tbl.length → ∀ e : EntryPtr,
      ((tbl.set j e).map HashTable.chainCount).sum
          + HashTable.chainCount (tbl.getD j .null) =
        (tbl.map HashTable.chainCount).sum + HashTable.chainCount e := by
  induction tbl with
  | nil => intro j hj; exact absurd hj (by simp)
  | cons a l ih =>
    intro j hj e
    cases j with
    | zero =>
      simp only [List.set, List.map, List.sum_cons, List.getD_cons_zero]
      omega
    | succ j =>
      have hj2 : j < l.length := by simpa using hj
      simp only [List.set, List.map, List.sum_cons, List.getD_cons_succ]
      have := ih j hj2 e
      omega

/-- A slot that holds an entry is an in-range index. -/
lemma lt_length_of_getD_node (tbl : List EntryPtr) (j : Nat) (k : List Nat)
    (v : Int) (n : EntryPtr) (hslot : tbl.getD j .null = .node k v n) :
    j < tbl.length := by
  by_contra hge
  rw [List.getD_eq_getElem?_getD,
    List.getElem?_eq_none (Nat.le_of_not_lt hge)] at hslot
  exact EntryPtr.noConfusion hslot

/-! ## C4 — re-inserting an existing key -/

/-- C4: the claim fails on the code.  The state after inserting `keyB` and
`keyD` (capacity 2) holds `keyD` displaced in slot 0; re-inserting `keyD`
with value 3 does update that entry in place and leaves `size()` at 2, but
`get(keyD)` still returns not-found rather than 3, because `get` only
inspects the home slot. -/
theorem update_displaced_key_get_returns_none :
    ((((HashTable.construct 2).insert keyB 1).bind fun h =>
        h.insert keyD 2).bind fun h => h.insert keyD 3).map
      (fun h => (h.get keyD, h.size, h.m_table)) =
      some (none, 2, [.node keyD 3 .null, .node keyB 1 .null]) := by decide

/-- C4 (amended): when the probe locates the slot whose head entry carries
the key, `insert(key, v2)` updates that entry in place — the table keeps
its shape, `size()` is unchanged, and the slot now carries value `v2`;
`get(key)` afterwards returns `v2` provided that slot is the key's home
index.  (The unconditional `get` claim is refuted by
`update_displaced_key_get_returns_none`.) -/
theorem insert_existing_key_updates_in_place (ht : HashTable) (key : List Nat)
    (v2 kv : Int) (j : Nat) (nx : EntryPtr)
    (hprobe : HashTable.linearProbeFuel ht.m_table ht.m_cap key
      (HashTable.fnv1a_hash ht.m_cap key) ht.m_cap = some j)
    (hslot : ht.m_table.getD j .null = .node key kv nx) :
    ∃ ht2, ht.insert key v2 = some ht2 ∧ ht2.size = ht.size ∧
      ht2.m_table.getD j .null = .node key v2 nx ∧
      (j = HashTable.fnv1a_hash ht.m_cap key → ht2.get key = some v2) := by
  have hjlen : j < ht.m_table.length :=
    lt_length_of_getD_node ht.m_table j key kv nx hslot
  refine ⟨⟨ht.m_cap, ht.m_table.set j (.node key v2 nx)⟩, ?_, ?_, ?_, ?_⟩
  · unfold HashTable.insert
    rw [hprobe]
    show (match ht.m_table.getD j .null with
      | .null => some (⟨ht.m_cap, ht.m_table.set j (.node key v2 .null)⟩ : HashTable)
      | .node k _ next => some ⟨ht.m_cap, ht.m_table.set j (.node k v2 next)⟩) = _
    rw [hslot]
  · show ((ht.m_table.set j (.node key v2 nx)).map HashTable.chainCount).sum
      = (ht.m_table.map HashTable.chainCount).sum
    have hsum := sum_map_chainCount_set ht.m_table j hjlen (.node key v2 nx)
    rw [hslot] at hsum
    simp only [HashTable.chainCount] at hsum
    omega
  · show (ht.m_table.set j (.node key v2 nx)).getD j .null = _
    rw [List.getD_eq_getElem?_getD, List.getElem?_set_self (by simpa using hjlen)]
    rfl
  · intro hj
    show HashTable.chainLookup key
      ((ht.m_table.set j (.node key v2 nx)).getD
        (HashTable.fnv1a_hash ht.m_cap key) .null) = some v2
    rw [← hj, List.getD_eq_getElem?_getD,
      List.getElem?_set_self (by simpa using hjlen)]
    simp [HashTable.chainLookup]

/-- Witness for `insert_existing_key_updates_in_place`: re-inserting `keyB`
with value 7 into `tableB2`, where `keyB` sits at its home slot 1. -/
theorem insert_existing_key_updates_in_place_witness :
    ∃ ht2, tableB2.insert keyB 7 = some ht2 ∧ ht2.size = tableB2.size ∧
      ht2.m_table.getD 1 .null = .node keyB 7 .null ∧
      (1 = HashTable.fnv1a_hash tableB2.m_cap keyB → ht2.get keyB = some 7) :=
  insert_existing_key_updates_in_place tableB2 keyB 7 1 1 .null
    (by decide) (by decide)

/-! ## Reachable states — operation sequences -/

/-- The public mutating/reading operations of the API.  `size`,
`capacity` and `is_empty` are const and do not touch the slots. -/
inductive FullOp where
  | insertOp (key : List Nat) (val : Int)
  | removeOp (key : List Nat)
  | clearOp
  | getOp (key : List Nat)
  | containsOp (key : List Nat)
deriving DecidableEq, Repr

/-- Run a sequence of public operations.  `get` and `contains` read but
mutate nothing (as in the source), `remove` is the source's no-op stub,
and an `insert` whose probe loop never exits aborts the run (`none`). -/
def runFullOps : HashTable → List FullOp → Option HashTable
  | ht, [] => some ht
  | ht, FullOp.insertOp k v :: ops =>
    match ht.insert k v with
    | none => none
    | some ht2 => runFullOps ht2 ops
  | ht, FullOp.removeOp k :: ops => runFullOps (ht.remove k) ops
  | ht, FullOp.clearOp :: ops => runFullOps ht.clear ops
  | ht, FullOp.getOp _ :: ops => runFullOps ht ops
  | ht, FullOp.containsOp _ :: ops => runFullOps ht ops

/-- Every slot holds at most one entry: it is null, or a single entry
whose `next` link is null. -/
def TrivialChains (tbl : List EntryPtr) : Prop :=
  ∀ e ∈ tbl, e = .null ∨ ∃ k v, e = .node k v .null

/-- Characterisation of a successful `insert`: the probe returned some
slot `j`, and the new table either places a fresh entry in the empty slot
`j` or overwrites the value of the entry already at `j`. -/
lemma insert_eq_cases (ht : HashTable) (key : List Nat) (v : Int)
    (ht2 : HashTable) (hins : ht.insert key v = some ht2) :
    ∃ j, HashTable.linearProbeFuel ht.m_table ht.m_cap key
        (HashTable.fnv1a_hash ht.m_cap key) ht.m_cap = some j ∧
      ((ht.m_table.getD j .null = .null ∧
          ht2 = ⟨ht.m_cap, ht.m_table.set j (.node key v .null)⟩) ∨
        (∃ k kv nx, ht.m_table.getD j .null = .node k kv nx ∧
          ht2 = ⟨ht.m_cap, ht.m_table.set j (.node k v nx)⟩)) := by
  unfold HashTable.insert at hins
  split at hins
  · exact Option.noConfusion hins
  · rename_i j hprobe
    refine ⟨j, hprobe, ?_⟩
    split at hins
    · rename_i hslot
      exact Or.inl ⟨hslot, (Option.some.inj hins).symm⟩
    · rename_i k kv nx hslot
      exact Or.inr ⟨k, kv, nx, hslot, (Option.some.inj hins).symm⟩

/-- `insert` preserves `TrivialChains`: it places a fresh entry with a
null `next`, or overwrites the value of an existing entry in place. -/
lemma insert_preserves_trivialChains (ht ht2 : HashTable) (key : List Nat)
    (v : Int) (hins : ht.insert key v = some ht2)
    (htriv : TrivialChains ht.m_table) : TrivialChains ht2.m_table := by
  obtain ⟨j, hprobe, hcases⟩ := insert_eq_cases ht key v ht2 hins
  rcases hcases with ⟨hslot, rfl⟩ | ⟨k, kv, nx, hslot, rfl⟩
  · intro e he
    rcases List.mem_or_eq_of_mem_set he with hmem | rfl
    · exact htriv e hmem
    · exact Or.inr ⟨key, v, rfl⟩
  · have hjlen := lt_length_of_getD_node ht.m_table j k kv nx hslot
    have hmem : EntryPtr.node k kv nx ∈ ht.m_table := by
      rw [List.getD_eq_getElem ht.m_table EntryPtr.null hjlen] at hslot
      exact hslot ▸ List.getElem_mem hjlen
    have hnx : nx = EntryPtr.null := by
      rcases htriv _ hmem with heq | ⟨k2, v2, heq⟩
      · exact EntryPtr.noConfusion heq
      · injection heq with hk2 hv2 hn2
    intro e he
    rcases List.mem_or_eq_of_mem_set he with hmem2 | rfl
    · exact htriv e hmem2
    · exact Or.inr ⟨k, v, hnx ▸ rfl⟩

/-- Every table reachable from a trivially-chained one stays trivially
chained: insert never builds chains, remove is a no-op, clear nulls every
slot, and get/contains mutate nothing. -/
lemma runFullOps_trivialChains : ∀ (ops : List FullOp) (ht ht2 : HashTable),
    TrivialChains ht.m_table → runFullOps ht ops = some ht2 →
    TrivialChains ht2.m_table := by
  intro ops
  induction ops with
  | nil =>
    intro ht ht2 htriv hrun
    have h2 : some ht = some ht2 := hrun
    obtain rfl := Option.some.inj h2
    exact htriv
  | cons op ops ih =>
    intro ht ht2 htriv hrun
    cases op with
    | insertOp k v =>
      rw [runFullOps] at hrun
      cases hins : ht.insert k v with
      | none =>
        rw [hins] at hrun
        have h2 : (none : Option HashTable) = some ht2 := hrun
        exact Option.noConfusion h2
      | some hmid =>
        rw [hins] at hrun
        have h2 : runFullOps hmid ops = some ht2 := hrun
        exact ih hmid ht2
          (insert_preserves_trivialChains ht hmid k v hins htriv) h2
    | removeOp k =>
      rw [runFullOps] at hrun
      exact ih _ _ htriv hrun
    | clearOp =>
      rw [runFullOps] at hrun
      refine ih _ _ ?_ hrun
      intro e he
      obtain ⟨x, _, rfl⟩ := List.mem_map.mp he
      exact Or.inl rfl
    | getOp k =>
      rw [runFullOps] at hrun
      exact ih _ _ htriv hrun
    | containsOp k =>
      rw [runFullOps] at hrun
      exact ih _ _ htriv hrun

@[simp] lemma node_beq_null (k : List Nat) (v : Int) (n : EntryPtr) :
    (EntryPtr.node k v n == EntryPtr.null) = false := by
  rfl

@[simp] lemma null_beq_null : (EntryPtr.null == EntryPtr.null) = true := by
  rfl

/-- Under trivial chains, the sum of chain lengths is the number of
occupied slots. -/
lemma size_eq_occupied_of_trivial : ∀ tbl : List EntryPtr, TrivialChains tbl →
    (tbl.map HashTable.chainCount).sum
      = (tbl.filter fun e => !(e == .null)).length := by
  intro tbl
  induction tbl with
  | nil => intro _; rfl
  | cons a l ih =>
    intro htriv
    have htl : TrivialChains l := fun e he => htriv e (List.mem_cons_of_mem a he)
    rcases htriv a (List.mem_cons_self a l) with rfl | ⟨k, v, rfl⟩
    · simpa [HashTable.chainCount, List.filter_cons] using ih htl
    · have h2 := ih htl
      simp [HashTable.chainCount, List.filter_cons]
      omega

/-! ## C8 — no chains in reachable states -/

/-- C8: in every state reachable through the public operations from a
fresh table, every stored entry has a null `next` link (insert never
chains), so each slot holds at most one entry and `size()` equals the
number of occupied slots. -/
theorem reachable_entries_unchained (cap : Nat) (ops : List FullOp)
    (ht : HashTable)
    (hrun : runFullOps (HashTable.construct cap) ops = some ht) :
    (∀ e ∈ ht.m_table, e = .null ∨ ∃ k v, e = .node k v .null) ∧
    ht.size = (ht.m_table.filter fun e => !(e == .null)).length := by
  have htriv0 : TrivialChains (HashTable.construct cap).m_table := by
    intro e he
    exact Or.inl (List.eq_of_mem_replicate he)
  have htriv := runFullOps_trivialChains ops _ ht htriv0 hrun
  exact ⟨htriv, size_eq_occupied_of_trivial ht.m_table htriv⟩

/-- Witness for `reachable_entries_unchained`: a five-operation run at
capacity 2 — insert, clear, insert, the remove stub, a get — ending in the
one-entry table `[null, node keyB 2 null]`. -/
theorem reachable_entries_unchained_witness :
    (∀ e ∈ (⟨2, [.null, .node keyB 2 .null]⟩ : HashTable).m_table,
      e = .null ∨ ∃ k v, e = .node k v .null) ∧
    (⟨2, [.null, .node keyB 2 .null]⟩ : HashTable).size =
      ((⟨2, [.null, .node keyB 2 .null]⟩ : HashTable).m_table.filter
        fun e => !(e == .null)).length :=
  reachable_entries_unchained 2
    [.insertOp keyA 1, .clearOp, .insertOp keyB 2, .removeOp keyA, .getOp keyB]
    ⟨2, [.null, .node keyB 2 .null]⟩ (by decide)

/-! ## C6 — size counts distinct inserted keys -/

/-- The operations the size-invariant claim ranges over: insert, get,
contains. -/
inductive TableOp where
  | insertOp (key : List Nat) (val : Int)
  | getOp (key : List Nat)
  | containsOp (key : List Nat)
deriving DecidableEq, Repr

/-- Run a sequence of insert/get/contains operations; `get` and `contains`
read but mutate nothing, and an `insert` whose probe loop never exits
aborts the run. -/
def runTableOps : HashTable → List TableOp → Option HashTable
  | ht, [] => some ht
  | ht, TableOp.insertOp k v :: ops =>
    match ht.insert k v with
    | none => none
    | some ht2 => runTableOps ht2 ops
  | ht, TableOp.getOp _ :: ops => runTableOps ht ops
  | ht, TableOp.containsOp _ :: ops => runTableOps ht ops

/-- The keys passed to the insert operations of a sequence, in order. -/
def insertedKeys : List TableOp → List (List Nat)
  | [] => []
  | TableOp.insertOp k _ :: ops => k :: insertedKeys ops
  | TableOp.getOp _ :: ops => insertedKeys ops
  | TableOp.containsOp _ :: ops => insertedKeys ops

/-- The key of the first entry of a slot, if any. -/
def headKey : EntryPtr → Option (List Nat)
  | .null => none
  | .node k _ _ => some k

/-- The head keys of the occupied slots, in slot order. -/
def tableKeys (tbl : List EntryPtr) : List (List Nat) :=
  tbl.filterMap headKey

/-! ### Slot update helpers -/

lemma getD_set_self (tbl : List EntryPtr) (j : Nat) (e : EntryPtr)
    (hj : j < tbl.length) : (tbl.set j e).getD j .null = e := by
  rw [List.getD_eq_getElem?_getD, List.getElem?_set_self (by simpa using hj)]
  rfl

lemma getD_set_ne (tbl : List EntryPtr) (j x : Nat) (e : EntryPtr)
    (hjx : j ≠ x) : (tbl.set j e).getD x .null = tbl.getD x .null := by
  rw [List.getD_eq_getElem?_getD, List.getElem?_set_ne hjx,
    ← List.getD_eq_getElem?_getD]

/-- Setting a slot to an entry can only make slots more occupied. -/
lemma getD_set_ne_null (tbl : List EntryPtr) (j x : Nat) (e : EntryPtr)
    (he : e ≠ .null) (hocc : tbl.getD x .null ≠ .null) :
    (tbl.set j e).getD x .null ≠ .null := by
  by_cases hjx : j = x
  · subst hjx
    by_cases hx : j < tbl.length
    · rw [getD_set_self tbl j e hx]
      exact he
    · rw [List.getD_eq_getElem?_getD,
        List.getElem?_eq_none (Nat.le_of_not_lt hx)] at hocc
      exact absurd rfl hocc
  · rw [getD_set_ne tbl j x e hjx]
    exact hocc

/-! ### tableKeys lemmas -/

lemma tableKeys_cons (e : EntryPtr) (l : List EntryPtr) :
    tableKeys (e :: l) = (headKey e).toList ++ tableKeys l := by
  cases e with
  | null => simp [tableKeys, headKey, List.filterMap_cons_none]
  | node k v n =>
    simp [tableKeys, headKey]

lemma tableKeys_set (tbl : List EntryPtr) (j : Nat) (e : EntryPtr)
    (hj : j < tbl.length) :
    tableKeys (tbl.set j e) =
      tableKeys (tbl.take j) ++ (headKey e).toList
        ++ tableKeys (tbl.drop (j + 1)) := by
  rw [List.set_eq_take_cons_drop e hj]
  unfold tableKeys
  rw [List.filterMap_append]
  rw [show List.filterMap headKey (e :: tbl.drop (j + 1))
      = tableKeys (e :: tbl.drop (j + 1)) from rfl, tableKeys_cons]
  unfold tableKeys
  rw [List.append_assoc]

lemma tableKeys_decomp (tbl : List EntryPtr) (j : Nat) (hj : j < tbl.length) :
    tableKeys tbl =
      tableKeys (tbl.take j) ++ (headKey (tbl.getD j .null)).toList
        ++ tableKeys (tbl.drop (j + 1)) := by
  conv_lhs => rw [← List.take_append_drop j tbl,
    List.drop_eq_getElem_cons hj]
  unfold tableKeys
  rw [List.filterMap_append]
  rw [show List.filterMap headKey (tbl[j] :: tbl.drop (j + 1))
      = tableKeys (tbl[j] :: tbl.drop (j + 1)) from rfl, tableKeys_cons]
  rw [List.getD_eq_getElem tbl .null hj]
  unfold tableKeys
  rw [List.append_assoc]

lemma mem_tableKeys_of_getD (tbl : List EntryPtr) (j : Nat) (k : List Nat)
    (v : Int) (n : EntryPtr) (hslot : tbl.getD j .null = .node k v n) :
    k ∈ tableKeys tbl := by
  have hjlen := lt_length_of_getD_node tbl j k v n hslot
  rw [List.getD_eq_getElem tbl .null hjlen] at hslot
  exact List.mem_filterMap.mpr
    ⟨tbl[j], List.getElem_mem hjlen, by rw [hslot]; rfl⟩

lemma getD_of_mem_tableKeys (tbl : List EntryPtr) (k : List Nat)
    (hmem : k ∈ tableKeys tbl) :
    ∃ j, j < tbl.length ∧ ∃ v n, tbl.getD j .null = .node k v n := by
  obtain ⟨e, he, hk⟩ := List.mem_filterMap.mp hmem
  obtain ⟨j, hjlen, hej⟩ := List.getElem_of_mem he
  cases e with
  | null => exact Option.noConfusion hk
  | node k2 v n =>
    have hk2 : k2 = k := Option.some.inj hk
    subst hk2
    exact ⟨j, hjlen, v, n, by rw [List.getD_eq_getElem tbl .null hjlen, hej]⟩

/-- Under trivial chains, the sum of chain lengths equals the number of
head keys. -/
lemma sum_chainCount_eq_tableKeys_length : ∀ tbl : List EntryPtr,
    TrivialChains tbl →
    (tbl.map HashTable.chainCount).sum = (tableKeys tbl).length := by
  intro tbl
  induction tbl with
  | nil => intro _; rfl
  | cons a l ih =>
    intro htriv
    have htl : TrivialChains l := fun e he => htriv e (List.mem_cons_of_mem a he)
    rw [tableKeys_cons]
    rcases htriv a (List.mem_cons_self a l) with rfl | ⟨k, v, rfl⟩
    · simpa [HashTable.chainCount, headKey] using ih htl
    · have h2 := ih htl
      simp [HashTable.chainCount, headKey]
      omega

/-! ### The linear-probing invariant -/

/-- Invariant of tables reachable by insert/get/contains from a fresh
table of capacity `cap`: the slot vector has length `cap`; chains are
trivial; no key occupies two slots; and every stored key is reachable from
its home index by a forward probe over occupied slots (no hole between a
key's home index and its slot — slots are never emptied by these
operations). -/
structure ProbeInv (cap : Nat) (tbl : List EntryPtr) : Prop where
  len : tbl.length = cap
  triv : TrivialChains tbl
  nodup : (tableKeys tbl).Nodup
  reach : ∀ j < cap, ∀ k v n, tbl.getD j .null = .node k v n →
    ∃ t < cap, j = (HashTable.fnv1a_hash cap k + t) % cap ∧
      ∀ s < t, tbl.getD ((HashTable.fnv1a_hash cap k + s) % cap) .null ≠ .null

/-- If the probe for `key` reaches an empty slot after walking `t < cap`
occupied non-matching slots, then `key` is nowhere in the table: were it
stored at some slot, the reachability invariant would place it on the probe
path (contradicting the non-matching walk), at the empty slot
(contradiction), or past it across the empty slot (contradicting the
no-hole occupancy). -/
lemma probe_null_key_absent (cap : Nat) (tbl : List EntryPtr) (key : List Nat)
    (hlen : tbl.length = cap)
    (hreach : ∀ j < cap, ∀ k v n, tbl.getD j .null = .node k v n →
      ∃ t < cap, j = (HashTable.fnv1a_hash cap k + t) % cap ∧
        ∀ s < t, tbl.getD ((HashTable.fnv1a_hash cap k + s) % cap) .null ≠ .null)
    (j t : Nat) (_htcap : t < cap)
    (hjt : j = (HashTable.fnv1a_hash cap key + t) % cap)
    (hpath : ∀ s < t, ∃ k v n,
      tbl.getD ((HashTable.fnv1a_hash cap key + s) % cap) .null
        = .node k v n ∧ k ≠ key)
    (hnull : tbl.getD j .null = .null) :
    key ∉ tableKeys tbl := by
  intro hmem
  obtain ⟨j2, hj2len, v, n, hslot2⟩ := getD_of_mem_tableKeys tbl key hmem
  have hj2cap : j2 < cap := hlen ▸ hj2len
  obtain ⟨t2, ht2cap, hjt2, hocc⟩ := hreach j2 hj2cap key v n hslot2
  rcases Nat.lt_trichotomy t2 t with hlt | heq | hgt
  · obtain ⟨k3, v3, n3, hslot3, hk3⟩ := hpath t2 hlt
    rw [← hjt2, hslot2] at hslot3
    injection hslot3 with h1 h2 h3
    exact hk3 h1.symm
  · have hj12 : j = j2 := by rw [hjt, hjt2, heq]
    rw [hj12, hslot2] at hnull
    exact EntryPtr.noConfusion hnull
  · have := hocc t hgt
    rw [← hjt] at this
    exact this hnull

/-- `insert` preserves the probing invariant, and the set of stored keys
grows by exactly the inserted key. -/
lemma insert_preserves_probeInv (cap : Nat) (hcap : 0 < cap)
    (ht ht2 : HashTable) (key : List Nat) (v : Int) (hmcap : ht.m_cap = cap)
    (inv : ProbeInv cap ht.m_table) (hins : ht.insert key v = some ht2) :
    ht2.m_cap = cap ∧ ProbeInv cap ht2.m_table ∧
    (∀ x, x ∈ tableKeys ht2.m_table ↔ x = key ∨ x ∈ tableKeys ht.m_table) := by
  have htriv2 : TrivialChains ht2.m_table :=
    insert_preserves_trivialChains ht ht2 key v hins inv.triv
  obtain ⟨j, hprobe, hcases⟩ := insert_eq_cases ht key v ht2 hins
  rw [hmcap] at hprobe
  have hhome : HashTable.fnv1a_hash cap key < cap := Nat.mod_lt _ hcap
  obtain ⟨t, htcap, hjt, hpath, hstop⟩ :=
    probe_some_spec ht.m_table cap key cap
      (HashTable.fnv1a_hash cap key) j hhome hprobe
  have hjcap : j < cap := by rw [hjt]; exact Nat.mod_lt _ hcap
  have hjlen : j < ht.m_table.length := by rw [inv.len]; exact hjcap
  rcases hcases with ⟨hnull, rfl⟩ | ⟨k, kv, nx, hslot, rfl⟩
  · -- fresh entry in the empty slot j
    have habsent : key ∉ tableKeys ht.m_table :=
      probe_null_key_absent cap ht.m_table key inv.len inv.reach
        j t htcap hjt hpath hnull
    have hold : tableKeys ht.m_table
        = tableKeys (ht.m_table.take j) ++ tableKeys (ht.m_table.drop (j + 1)) := by
      rw [tableKeys_decomp ht.m_table j hjlen, hnull]
      simp [headKey]
    have hnew : tableKeys (ht.m_table.set j (.node key v .null))
        = tableKeys (ht.m_table.take j)
          ++ key :: tableKeys (ht.m_table.drop (j + 1)) := by
      rw [tableKeys_set ht.m_table j _ hjlen]
      simp [headKey]
    refine ⟨hmcap, ⟨by simpa using inv.len, htriv2, ?_, ?_⟩, ?_⟩
    · -- nodup
      show (tableKeys (ht.m_table.set j (.node key v .null))).Nodup
      rw [hnew, List.nodup_middle, List.nodup_cons, ← hold]
      exact ⟨habsent, hold ▸ inv.nodup⟩
    · -- reach
      intro j2 hj2cap k2 v2 n2 hslot2
      show ∃ t2 < cap, j2 = (HashTable.fnv1a_hash cap k2 + t2) % cap ∧
        ∀ s < t2, (ht.m_table.set j (.node key v .null)).getD
          ((HashTable.fnv1a_hash cap k2 + s) % cap) .null ≠ .null
      by_cases hj2 : j = j2
      · subst hj2
        rw [getD_set_self ht.m_table j _ hjlen] at hslot2
        injection hslot2 with hk2 hv2 hn2
        subst hk2
        refine ⟨t, htcap, hjt, fun s hs => ?_⟩
        obtain ⟨k3, v3, n3, hslot3, _⟩ := hpath s hs
        exact getD_set_ne_null ht.m_table j _ _ (by simp)
          (by rw [hslot3]; simp)
      · rw [getD_set_ne ht.m_table j j2 _ hj2] at hslot2
        obtain ⟨t2, ht2cap, hjt2, hocc⟩ := inv.reach j2 hj2cap k2 v2 n2 hslot2
        exact ⟨t2, ht2cap, hjt2, fun s hs =>
          getD_set_ne_null ht.m_table j _ _ (by simp) (hocc s hs)⟩
    · -- key bookkeeping
      intro x
      show x ∈ tableKeys (ht.m_table.set j (.node key v .null)) ↔ _
      rw [hnew, hold]
      simp only [List.mem_append, List.mem_cons]
      tauto
  · -- overwrite the entry at slot j; its head key must be `key`
    have hk : k = key := by
      rcases hstop with hstopnull | ⟨v3, n3, hstop3⟩
      · rw [hslot] at hstopnull; exact EntryPtr.noConfusion hstopnull
      · rw [hslot] at hstop3
        injection hstop3 with h1 h2 h3
    subst hk
    have hnx : nx = .null := by
      have hmem : EntryPtr.node k kv nx ∈ ht.m_table := by
        have h3 := hslot
        rw [List.getD_eq_getElem ht.m_table .null hjlen] at h3
        exact h3 ▸ List.getElem_mem hjlen
      rcases inv.triv _ hmem with heq | ⟨k2, v2, heq⟩
      · exact EntryPtr.noConfusion heq
      · injection heq with h1 h2 h3
    have hold : tableKeys ht.m_table
        = tableKeys (ht.m_table.take j)
          ++ k :: tableKeys (ht.m_table.drop (j + 1)) := by
      rw [tableKeys_decomp ht.m_table j hjlen, hslot]
      simp [headKey]
    have hnew : tableKeys (ht.m_table.set j (.node k v nx))
        = tableKeys (ht.m_table.take j)
          ++ k :: tableKeys (ht.m_table.drop (j + 1)) := by
      rw [tableKeys_set ht.m_table j _ hjlen]
      simp [headKey]
    have hsame : tableKeys (ht.m_table.set j (.node k v nx))
        = tableKeys ht.m_table := by rw [hnew, hold]
    refine ⟨hmcap, ⟨by simpa using inv.len, htriv2, ?_, ?_⟩, ?_⟩
    · show (tableKeys (ht.m_table.set j (.node k v nx))).Nodup
      rw [hsame]
      exact inv.nodup
    · intro j2 hj2cap k2 v2 n2 hslot2
      show ∃ t2 < cap, j2 = (HashTable.fnv1a_hash cap k2 + t2) % cap ∧
        ∀ s < t2, (ht.m_table.set j (.node k v nx)).getD
          ((HashTable.fnv1a_hash cap k2 + s) % cap) .null ≠ .null
      by_cases hj2 : j = j2
      · subst hj2
        rw [getD_set_self ht.m_table j _ hjlen] at hslot2
        injection hslot2 with hk2 hv2 hn2
        subst hk2
        obtain ⟨t2, ht2cap, hjt2, hocc⟩ := inv.reach j hjcap k kv nx hslot
        exact ⟨t2, ht2cap, hjt2, fun s hs =>
          getD_set_ne_null ht.m_table j _ _ (by simp) (hocc s hs)⟩
      · rw [getD_set_ne ht.m_table j j2 _ hj2] at hslot2
        obtain ⟨t2, ht2cap, hjt2, hocc⟩ := inv.reach j2 hj2cap k2 v2 n2 hslot2
        exact ⟨t2, ht2cap, hjt2, fun s hs =>
          getD_set_ne_null ht.m_table j _ _ (by simp) (hocc s hs)⟩
    · intro x
      show x ∈ tableKeys (ht.m_table.set j (.node k v nx)) ↔ _
      rw [hsame]
      have hmemk : k ∈ tableKeys ht.m_table :=
        mem_tableKeys_of_getD ht.m_table j k kv nx hslot
      constructor
      · intro hx; exact Or.inr hx
      · rintro (rfl | hx)
        · exact hmemk
        · exact hx

/-- Running insert/get/contains operations preserves the probing
invariant, and the stored keys are exactly the inserted keys plus the
keys already present. -/
lemma runTableOps_probeInv (cap : Nat) (hcap : 0 < cap) :
    ∀ (ops : List TableOp) (ht ht2 : HashTable), ht.m_cap = cap →
      ProbeInv cap ht.m_table → runTableOps ht ops = some ht2 →
      ht2.m_cap = cap ∧ ProbeInv cap ht2.m_table ∧
      (∀ x, x ∈ tableKeys ht2.m_table ↔
        x ∈ insertedKeys ops ∨ x ∈ tableKeys ht.m_table) := by
  intro ops
  induction ops with
  | nil =>
    intro ht ht2 hmcap inv hrun
    have h2 : some ht = some ht2 := hrun
    obtain rfl := Option.some.inj h2
    exact ⟨hmcap, inv, fun x => by simp [insertedKeys]⟩
  | cons op ops ih =>
    intro ht ht2 hmcap inv hrun
    cases op with
    | insertOp k v =>
      rw [runTableOps] at hrun
      cases hins : ht.insert k v with
      | none =>
        rw [hins] at hrun
        have h2 : (none : Option HashTable) = some ht2 := hrun
        exact Option.noConfusion h2
      | some hmid =>
        rw [hins] at hrun
        have h2 : runTableOps hmid ops = some ht2 := hrun
        obtain ⟨hmc, hinv, hkeys⟩ :=
          insert_preserves_probeInv cap hcap ht hmid k v hmcap inv hins
        obtain ⟨hmc2, hinv2, hkeys2⟩ := ih hmid ht2 hmc hinv h2
        refine ⟨hmc2, hinv2, fun x => ?_⟩
        rw [hkeys2 x, hkeys x]
        simp only [insertedKeys, List.mem_cons]
        tauto
    | getOp k =>
      rw [runTableOps] at hrun
      obtain ⟨hmc2, hinv2, hkeys2⟩ := ih ht ht2 hmcap inv hrun
      exact ⟨hmc2, hinv2, fun x => by rw [hkeys2 x]; rfl⟩
    | containsOp k =>
      rw [runTableOps] at hrun
      obtain ⟨hmc2, hinv2, hkeys2⟩ := ih ht ht2 hmcap inv hrun
      exact ⟨hmc2, hinv2, fun x => by rw [hkeys2 x]; rfl⟩

/-- C6: after any finite sequence of insert/get/contains operations on a
table constructed with positive capacity (every insert's probe loop
terminating), `size()` equals the number of distinct keys inserted so far;
no keys having been removed, and `get`/`contains` not touching the slots,
the count is invariant under their interleaving. -/
theorem size_counts_distinct_inserted_keys (cap : Nat) (ops : List TableOp)
    (ht : HashTable) (hcap : 0 < cap)
    (hrun : runTableOps (HashTable.construct cap) ops = some ht) :
    ht.size = (insertedKeys ops).toFinset.card := by
  have hkeys0 : tableKeys (HashTable.construct cap).m_table = [] := by
    rw [show (HashTable.construct cap).m_table
      = List.replicate cap EntryPtr.null from rfl]
    unfold tableKeys
    rw [List.filterMap_eq_nil_iff]
    intro e he
    rw [List.eq_of_mem_replicate he]
    rfl
  have inv0 : ProbeInv cap (HashTable.construct cap).m_table := by
    refine ⟨by simp [HashTable.construct], ?_, ?_, ?_⟩
    · intro e he
      exact Or.inl (List.eq_of_mem_replicate he)
    · rw [hkeys0]
      exact List.nodup_nil
    · intro j hj k v n hslot
      rw [show (HashTable.construct cap).m_table
        = List.replicate cap EntryPtr.null from rfl, getD_replicate_null] at hslot
      exact EntryPtr.noConfusion hslot
  obtain ⟨hmc, hinv, hkeys⟩ :=
    runTableOps_probeInv cap hcap ops (HashTable.construct cap) ht rfl inv0 hrun
  have hkeys2 : ∀ x, x ∈ tableKeys ht.m_table ↔ x ∈ insertedKeys ops := by
    intro x
    rw [hkeys x, hkeys0]
    simp
  calc ht.size = (tableKeys ht.m_table).length :=
        sum_chainCount_eq_tableKeys_length ht.m_table hinv.triv
    _ = (tableKeys ht.m_table).toFinset.card :=
        (List.toFinset_card_of_nodup hinv.nodup).symm
    _ = (insertedKeys ops).toFinset.card := by
        congr 1
        ext x
        simp only [List.mem_toFinset]
        exact hkeys2 x

/-- Witness for `size_counts_distinct_inserted_keys`: capacity 2 and the
sequence insert(keyB,1), get(keyB), insert(keyB,7) (an update),
insert(keyD,2) (a colliding fresh key), contains(keyA); the final size is
2, the number of distinct inserted keys. -/
theorem size_counts_distinct_inserted_keys_witness :
    (⟨2, [.node keyD 2 .null, .node keyB 7 .null]⟩ : HashTable).size
      = (insertedKeys [.insertOp keyB 1, .getOp keyB, .insertOp keyB 7,
          .insertOp keyD 2, .containsOp keyA]).toFinset.card :=
  size_counts_distinct_inserted_keys 2
    [.insertOp keyB 1, .getOp keyB, .insertOp keyB 7,
      .insertOp keyD 2, .containsOp keyA]
    ⟨2, [.node keyD 2 .null, .node keyB 7 .null]⟩
    (by decide) (by decide)
